import Mathlib

/-!
Verification of the `MyHashMap` separate-chaining hash map
(`src/include/MyHashMap/MyHashMap.h`) against its specification.

The C++ class `MyHashMap<K, V>` stores, for each bucket, a singly linked
chain of `Node { K key; V value; unique_ptr<Node> next; }`.  A chain is an
ownership-linear singly linked list, so we model it as `List (K × V)` (head
of the list = head of the chain).  The bucket array
`std::vector<std::unique_ptr<Node>> m_buckets` becomes `List (List (K × V))`
and the counter `size_t m_size` becomes a `Nat` (the counter only ever grows
by one per freshly allocated node, so it can never reach `2^64` in a real
execution and machine-word wraparound is not modelled).

The key type is generic, constrained in the source by `Hashable` and
`EqualityComparable` concepts; we model the supplied capabilities as a
function `hashFn : K → Nat` (for `std::hash<K>{}(key)`) together with
`DecidableEq K` (for `operator==`).

`get_bucket_index` computes `std::hash<K>{}(key) % m_buckets.size()`,
which is undefined behaviour (division by zero) when the bucket vector is
empty; the model therefore returns `Option Nat`, with `none` for the
undefined case, and `insert` propagates that `none`.
-/

namespace MyHashMapModel

/-- Model of the C++ class state: the bucket vector (each slot holding the
chain owned by that slot, head first) and the `m_size` counter. -/
structure MyHashMap (K V : Type) where
  m_buckets : List (List (K × V))
  m_size : Nat
  deriving DecidableEq

variable {K V : Type} [DecidableEq K]

/-- Model of the constructor `MyHashMap(size_t initial_buckets = 16)`:
`m_size` is initialised to `0` and the bucket vector is resized to
`initial_buckets` empty slots (default-constructed `unique_ptr`s, i.e.
empty chains).  No clamping or validation of `initial_buckets` occurs. -/
def mkMyHashMap (initial_buckets : Nat := 16) : MyHashMap K V :=
  { m_buckets := List.replicate initial_buckets [], m_size := 0 }

variable (hashFn : K → Nat)

/-- Model of `get_bucket_index`: `std::hash<K>{}(key) % m_buckets.size()`.
When `m_buckets.size() == 0` the modulo is division by zero, which is
undefined behaviour in C++; the model returns `none` in that case. -/
def get_bucket_index (m : MyHashMap K V) (key : K) : Option Nat :=
  if m.m_buckets.length = 0 then none
  else some (hashFn key % m.m_buckets.length)

/-- Model of the scan loop in `insert` (steps 1–2 of the source): walk the
chain from the head; at the first node whose key compares equal to `key`,
overwrite the value of that node in place and stop.  Returns `none` when the
chain is exhausted without a match (the loop falls through). -/
def updateChain (key : K) (value : V) : List (K × V) → Option (List (K × V))
  | [] => none
  | (k, v) :: rest =>
    if k = key then some ((k, value) :: rest)
    else (updateChain key value rest).map (fun rest' => (k, v) :: rest')

/-- Model of `MyHashMap::insert`: compute the bucket index, scan that
chain of that bucket; on a match overwrite the value and return `false`;
otherwise head-insert a fresh node (its `next` takes ownership of the old
head), increment `m_size`, and return `true`.  The source contains no
load-factor check and no rehash (an explicit TODO).  The result is `none`
exactly when `get_bucket_index` hits its division-by-zero case. -/
def insert (m : MyHashMap K V) (key : K) (value : V) :
    Option (MyHashMap K V × Bool) :=
  match get_bucket_index hashFn m key with
  | none => none
  | some index =>
    let chain := m.m_buckets.getD index []
    match updateChain key value chain with
    | some chain' =>
        some ({ m with m_buckets := m.m_buckets.set index chain' }, false)
    | none =>
        some ({ m_buckets := m.m_buckets.set index ((key, value) :: chain),
                m_size := m.m_size + 1 }, true)

/-- The chain owned by bucket slot `i` (empty for an out-of-range slot). -/
def bucketOf (m : MyHashMap K V) (i : Nat) : List (K × V) :=
  m.m_buckets.getD i []

/-- Capacity of the container: the length of the bucket vector
(`m_buckets.size()` in the source). -/
def capacity (m : MyHashMap K V) : Nat :=
  m.m_buckets.length

/-- All entries reachable across all bucket chains. -/
def allEntries (m : MyHashMap K V) : List (K × V) :=
  m.m_buckets.flatten

/-- The keys of all entries reachable across all bucket chains. -/
def allKeys (m : MyHashMap K V) : List K :=
  (allEntries m).map Prod.fst

/-- The keys stored in one chain, in chain order. -/
def chainKeys (c : List (K × V)) : List K :=
  c.map Prod.fst

/-- Reachable container states: those produced by the constructor followed
by any sequence of `insert` calls (the only mutating operation the source
implements). -/
inductive Reachable : MyHashMap K V → Prop
  | mk (n : Nat) : Reachable (mkMyHashMap n)
  | step (m m' : MyHashMap K V) (key : K) (value : V) (b : Bool) :
      Reachable m → insert hashFn m key value = some (m', b) → Reachable m'

/-- Helper for running concrete scenarios: perform `insert` and keep the
resulting state (for a state with nonzero capacity `insert` always
returns `some`). -/
def insertD (m : MyHashMap K V) (key : K) (value : V) : MyHashMap K V :=
  match insert hashFn m key value with
  | some (m', _) => m'
  | none => m

/-- The bucket-placement invariant from the spec: every entry reachable
from bucket slot `i` hashes (mod capacity) to exactly `i`. -/
def bucketInv (m : MyHashMap K V) : Prop :=
  ∀ i, i < capacity m → ∀ p ∈ bucketOf m i, hashFn p.1 % capacity m = i

/-- Per-chain key uniqueness: no chain stores two entries with equal keys. -/
def chainsNodup (m : MyHashMap K V) : Prop :=
  ∀ i, i < capacity m → (chainKeys (bucketOf m i)).Nodup

/-- The size invariant from the spec: `m_size` equals the total number of
entries reachable across all chains. -/
def sizeInv (m : MyHashMap K V) : Prop :=
  m.m_size = (allEntries m).length

/-- Concrete scenario from the spec: thirteen distinct keys `0, …, 12`
(with values `100, …, 112`) inserted into a fresh table of initial
capacity 16, using the identity hash. -/
def scenario13 : MyHashMap Nat Nat :=
  List.foldl (fun m k => insertD (fun x => x) m k (k + 100)) (mkMyHashMap 16)
    (List.range 13)

/-- Concrete state used by witnesses: capacity 4, one entry (2, 9),
obtained from `mkMyHashMap 4` by one insert under the identity hash. -/
def state1 : MyHashMap Nat Nat :=
  { m_buckets := [[], [], [(2, 9)], []], m_size := 1 }

/-- Concrete state used by witnesses: capacity 4, entries (2, 9) and
(5, 3), obtained from `state1` by one further insert under the identity
hash. -/
def state2 : MyHashMap Nat Nat :=
  { m_buckets := [[], [(5, 3)], [(2, 9)], []], m_size := 2 }

/-! ### List helper lemmas -/

theorem getD_set_self {α : Type _} (l : List α) (i : Nat) (c d : α)
    (h : i < l.length) : (l.set i c).getD i d = c := by
  rw [List.getD_eq_getElem _ _ (by simpa using h)]
  exact List.getElem_set_self _

theorem getD_set_ne {α : Type _} (l : List α) (i j : Nat) (c d : α)
    (h : i ≠ j) : (l.set i c).getD j d = l.getD j d := by
  by_cases hj : j < l.length
  · rw [List.getD_eq_getElem _ _ (by simpa using hj),
      List.getD_eq_getElem _ _ hj]
    exact List.getElem_set_ne h _
  · rw [List.getD_eq_default _ _ (by simpa using Nat.le_of_not_lt hj),
      List.getD_eq_default _ _ (Nat.le_of_not_lt hj)]

theorem getD_replicate_nil {α : Type _} (n i : Nat) :
    (List.replicate n ([] : List α)).getD i [] = [] := by
  by_cases h : i < n
  · rw [List.getD_eq_getElem _ _ (by simpa using h)]
    exact List.getElem_replicate _ _
  · exact List.getD_eq_default _ _ (by simpa using Nat.le_of_not_lt h)

theorem length_flatten_set {α : Type _} (L : List (List α)) (i : Nat)
    (c : List α) (h : i < L.length) :
    (L.set i c).flatten.length + (L.getD i []).length =
      L.flatten.length + c.length := by
  rw [List.set_eq_take_append_cons_drop, if_pos h]
  conv_rhs => rw [← List.take_append_drop i L, List.drop_eq_getElem_cons h]
  rw [List.getD_eq_getElem _ _ h]
  simp only [List.flatten_append, List.flatten_cons, List.length_append]
  omega

/-! ### Basic facts about the constructor and observations -/

theorem capacity_mk (n : Nat) : capacity (mkMyHashMap n : MyHashMap K V) = n := by
  simp [capacity, mkMyHashMap]

theorem bucketOf_mk (n i : Nat) :
    bucketOf (mkMyHashMap n : MyHashMap K V) i = [] := by
  simp [bucketOf, mkMyHashMap, getD_replicate_nil]

theorem allEntries_mk (n : Nat) :
    allEntries (mkMyHashMap n : MyHashMap K V) = [] := by
  induction n with
  | zero => simp [allEntries, mkMyHashMap]
  | succ k ih =>
      simpa [allEntries, mkMyHashMap, List.replicate_succ] using ih

theorem mem_bucketOf_mem_allEntries {m : MyHashMap K V} {i : Nat}
    {p : K × V} (hi : i < capacity m) (hp : p ∈ bucketOf m i) :
    p ∈ allEntries m := by
  rw [allEntries, List.mem_flatten]
  refine ⟨bucketOf m i, ?_, hp⟩
  rw [bucketOf, List.getD_eq_getElem _ _ hi]
  exact List.getElem_mem hi

theorem mem_allEntries_exists_bucket {m : MyHashMap K V} {p : K × V}
    (hp : p ∈ allEntries m) : ∃ i, i < capacity m ∧ p ∈ bucketOf m i := by
  rw [allEntries, List.mem_flatten] at hp
  obtain ⟨c, hc, hpc⟩ := hp
  obtain ⟨i, hi, rfl⟩ := List.mem_iff_getElem.mp hc
  exact ⟨i, hi, by rw [bucketOf, List.getD_eq_getElem _ _ hi]; exact hpc⟩

/-! ### The chain scan loop -/

theorem updateChain_eq_none_iff (key : K) (value : V) (c : List (K × V)) :
    updateChain key value c = none ↔ key ∉ chainKeys c := by
  induction c with
  | nil => simp [updateChain, chainKeys]
  | cons head rest ih =>
      obtain ⟨k, v⟩ := head
      by_cases hk : k = key
      · simp [updateChain, hk, chainKeys]
      · simp only [updateChain, if_neg hk, Option.map_eq_none', ih,
          chainKeys, List.map_cons, List.mem_cons]
        constructor
        · rintro hn (h | h)
          · exact hk h.symm
          · exact hn h
        · intro hn h
          exact hn (Or.inr h)

theorem updateChain_some_decomp {key : K} {value : V} {c c' : List (K × V)}
    (h : updateChain key value c = some c') :
    ∃ pre v0 post, c = pre ++ (key, v0) :: post ∧ key ∉ chainKeys pre ∧
      c' = pre ++ (key, value) :: post := by
  induction c generalizing c' with
  | nil => simp [updateChain] at h
  | cons head rest ih =>
      obtain ⟨k, v⟩ := head
      by_cases hk : k = key
      · subst hk
        rw [updateChain, if_pos rfl, Option.some_inj] at h
        exact ⟨[], v, rest, by simp, by simp [chainKeys], h.symm⟩
      · rw [updateChain, if_neg hk] at h
        obtain ⟨rest', hrest, rfl⟩ := Option.map_eq_some'.mp h
        obtain ⟨pre, v0, post, hc, hpre, hc'⟩ := ih hrest
        refine ⟨(k, v) :: pre, v0, post, by simp [hc], ?_, by simp [hc']⟩
        simp only [chainKeys, List.map_cons, List.mem_cons]
        rintro (h | h)
        · exact hk h.symm
        · exact hpre (by simpa [chainKeys] using h)

theorem updateChain_some_keys {key : K} {value : V} {c c' : List (K × V)}
    (h : updateChain key value c = some c') : chainKeys c' = chainKeys c := by
  obtain ⟨pre, v0, post, rfl, _, rfl⟩ := updateChain_some_decomp h
  simp [chainKeys]

theorem updateChain_some_length {key : K} {value : V} {c c' : List (K × V)}
    (h : updateChain key value c = some c') : c'.length = c.length := by
  obtain ⟨pre, v0, post, rfl, _, rfl⟩ := updateChain_some_decomp h
  simp

theorem updateChain_isSome_of_mem {key : K} (value : V) {c : List (K × V)}
    (h : key ∈ chainKeys c) : ∃ c', updateChain key value c = some c' := by
  rcases hc : updateChain key value c with _ | c'
  · exact absurd ((updateChain_eq_none_iff key value c).mp hc) (not_not_intro h)
  · exact ⟨c', rfl⟩

/-! ### Characterising one `insert` call -/

theorem get_bucket_index_of_pos {m : MyHashMap K V} (key : K)
    (hcap : 0 < capacity m) :
    get_bucket_index hashFn m key = some (hashFn key % capacity m) := by
  rw [get_bucket_index, if_neg (by simpa [capacity] using Nat.pos_iff_ne_zero.mp hcap)]
  rfl

theorem get_bucket_index_of_zero {m : MyHashMap K V} (key : K)
    (hcap : capacity m = 0) : get_bucket_index hashFn m key = none := by
  rw [get_bucket_index, if_pos (by simpa [capacity] using hcap)]

theorem insert_of_updateChain_some {m : MyHashMap K V} {key : K} {value : V}
    {c' : List (K × V)} (hcap : 0 < capacity m)
    (hu : updateChain key value (bucketOf m (hashFn key % capacity m)) = some c') :
    insert hashFn m key value =
      some ({ m with
              m_buckets := m.m_buckets.set (hashFn key % capacity m) c' },
        false) := by
  rw [insert, get_bucket_index_of_pos hashFn key hcap]
  rw [bucketOf] at hu
  simp only [hu]

theorem insert_of_updateChain_none {m : MyHashMap K V} {key : K} {value : V}
    (hcap : 0 < capacity m)
    (hu : updateChain key value (bucketOf m (hashFn key % capacity m)) = none) :
    insert hashFn m key value =
      some ({ m_buckets := m.m_buckets.set (hashFn key % capacity m)
                ((key, value) :: bucketOf m (hashFn key % capacity m)),
              m_size := m.m_size + 1 },
        true) := by
  rw [insert, get_bucket_index_of_pos hashFn key hcap]
  rw [bucketOf] at hu
  simp only [hu, bucketOf]

theorem capacity_pos_of_insert_some {m m' : MyHashMap K V} {key : K}
    {value : V} {b : Bool} (h : insert hashFn m key value = some (m', b)) :
    0 < capacity m := by
  by_contra hcap
  rw [insert, get_bucket_index_of_zero hashFn key (Nat.eq_zero_of_not_pos hcap)] at h
  exact Option.noConfusion h

theorem insert_some_cases {m m' : MyHashMap K V} {key : K} {value : V}
    {b : Bool} (h : insert hashFn m key value = some (m', b)) :
    (∃ c', updateChain key value (bucketOf m (hashFn key % capacity m)) = some c' ∧
      b = false ∧
      m' = { m with
             m_buckets := m.m_buckets.set (hashFn key % capacity m) c' }) ∨
    (updateChain key value (bucketOf m (hashFn key % capacity m)) = none ∧
      b = true ∧
      m' = { m_buckets := m.m_buckets.set (hashFn key % capacity m)
               ((key, value) :: bucketOf m (hashFn key % capacity m)),
             m_size := m.m_size + 1 }) := by
  have hcap := capacity_pos_of_insert_some hashFn h
  rcases hu : updateChain key value (bucketOf m (hashFn key % capacity m)) with _ | c'
  · rw [insert_of_updateChain_none hashFn hcap hu, Option.some_inj,
      Prod.mk.injEq] at h
    exact Or.inr ⟨rfl, h.2.symm, h.1.symm⟩
  · rw [insert_of_updateChain_some hashFn hcap hu, Option.some_inj,
      Prod.mk.injEq] at h
    exact Or.inl ⟨c', rfl, h.2.symm, h.1.symm⟩

theorem capacity_insert {m m' : MyHashMap K V} {key : K} {value : V}
    {b : Bool} (h : insert hashFn m key value = some (m', b)) :
    capacity m' = capacity m := by
  rcases insert_some_cases hashFn h with ⟨c', -, -, rfl⟩ | ⟨-, -, rfl⟩ <;>
    simp [capacity]

/-! ### Preservation of the container invariants -/

theorem bucketOf_mk_record (bs : List (List (K × V))) (s i : Nat) :
    bucketOf ⟨bs, s⟩ i = bs.getD i [] :=
  rfl

theorem insert_preserves_inv {m m' : MyHashMap K V} {key : K} {value : V}
    {b : Bool} (hb : bucketInv hashFn m) (hn : chainsNodup m) (hs : sizeInv m)
    (h : insert hashFn m key value = some (m', b)) :
    bucketInv hashFn m' ∧ chainsNodup m' ∧ sizeInv m' := by
  have hcap := capacity_pos_of_insert_some hashFn h
  have hi : hashFn key % capacity m < capacity m := Nat.mod_lt _ hcap
  have hilen : hashFn key % capacity m < m.m_buckets.length := hi
  rcases insert_some_cases hashFn h with ⟨c', hu, -, rfl⟩ | ⟨hu, -, rfl⟩
  · -- update-in-place case: the scanned chain is replaced by one with the
    -- same keys, in the same slot; size is unchanged
    have hkeys := updateChain_some_keys hu
    have hlen := updateChain_some_length hu
    refine ⟨?_, ?_, ?_⟩
    · intro j hj p hp
      rw [show capacity { m with
          m_buckets := m.m_buckets.set (hashFn key % capacity m) c' } =
          capacity m from List.length_set ..] at hj ⊢
      rw [bucketOf_mk_record] at hp
      by_cases hji : j = hashFn key % capacity m
      · subst hji
        rw [getD_set_self _ _ _ _ hilen] at hp
        have hpk : p.1 ∈ chainKeys (bucketOf m (hashFn key % capacity m)) := by
          rw [← hkeys]
          exact List.mem_map_of_mem _ hp
        obtain ⟨q, hq, hqk⟩ := List.mem_map.mp hpk
        rw [← hqk]
        exact hb _ hj q hq
      · rw [getD_set_ne _ _ _ _ _ (Ne.symm hji)] at hp
        exact hb j hj p hp
    · intro j hj
      rw [show capacity { m with
          m_buckets := m.m_buckets.set (hashFn key % capacity m) c' } =
          capacity m from List.length_set ..] at hj
      rw [show bucketOf { m with
          m_buckets := m.m_buckets.set (hashFn key % capacity m) c' } j =
          (m.m_buckets.set (hashFn key % capacity m) c').getD j [] from rfl]
      by_cases hji : j = hashFn key % capacity m
      · subst hji
        rw [getD_set_self _ _ _ _ hilen]
        have := hn _ hj
        rwa [← hkeys] at this
      · rw [getD_set_ne _ _ _ _ _ (Ne.symm hji)]
        exact hn j hj
    · have htot := length_flatten_set m.m_buckets (hashFn key % capacity m) c' hilen
      rw [sizeInv] at hs ⊢
      simp only [allEntries] at hs ⊢
      rw [show m.m_buckets.getD (hashFn key % capacity m) [] =
          bucketOf m (hashFn key % capacity m) from rfl, hlen] at htot
      omega
  · -- head-insertion case: a fresh entry is prepended to the scanned chain
    have hnotin : key ∉ chainKeys (bucketOf m (hashFn key % capacity m)) :=
      (updateChain_eq_none_iff key value _).mp hu
    refine ⟨?_, ?_, ?_⟩
    · intro j hj p hp
      rw [show capacity ⟨m.m_buckets.set (hashFn key % capacity m)
          ((key, value) :: bucketOf m (hashFn key % capacity m)),
          m.m_size + 1⟩ = capacity m from List.length_set ..] at hj ⊢
      rw [bucketOf_mk_record] at hp
      by_cases hji : j = hashFn key % capacity m
      · subst hji
        rw [getD_set_self _ _ _ _ hilen] at hp
        rcases List.mem_cons.mp hp with rfl | hp
        · rfl
        · exact hb _ hj p hp
      · rw [getD_set_ne _ _ _ _ _ (Ne.symm hji)] at hp
        exact hb j hj p hp
    · intro j hj
      rw [show capacity ⟨m.m_buckets.set (hashFn key % capacity m)
          ((key, value) :: bucketOf m (hashFn key % capacity m)),
          m.m_size + 1⟩ = capacity m from List.length_set ..] at hj
      rw [bucketOf_mk_record]
      by_cases hji : j = hashFn key % capacity m
      · subst hji
        rw [getD_set_self _ _ _ _ hilen]
        simp only [chainKeys, List.map_cons, List.nodup_cons]
        refine ⟨?_, hn _ hj⟩
        simpa [chainKeys] using hnotin
      · rw [getD_set_ne _ _ _ _ _ (Ne.symm hji)]
        exact hn j hj
    · have htot := length_flatten_set m.m_buckets (hashFn key % capacity m)
        ((key, value) :: bucketOf m (hashFn key % capacity m)) hilen
      rw [sizeInv] at hs ⊢
      simp only [allEntries] at hs ⊢
      rw [show m.m_buckets.getD (hashFn key % capacity m) [] =
          bucketOf m (hashFn key % capacity m) from rfl] at htot
      simp only [List.length_cons] at htot
      omega

theorem reachable_inv {m : MyHashMap K V} (hr : Reachable hashFn m) :
    bucketInv hashFn m ∧ chainsNodup m ∧ sizeInv m := by
  induction hr with
  | mk n =>
      refine ⟨?_, ?_, ?_⟩
      · intro i hi p hp
        rw [bucketOf_mk] at hp
        exact absurd hp (List.not_mem_nil p)
      · intro i hi
        rw [bucketOf_mk]
        simp [chainKeys]
      · rw [sizeInv, allEntries_mk]
        rfl
  | step m m' key value b hr hins ih =>
      exact insert_preserves_inv hashFn ih.1 ih.2.1 ih.2.2 hins

/-! ### Global key uniqueness and key location -/

theorem nodup_allKeys_of_inv {m : MyHashMap K V} (hb : bucketInv hashFn m)
    (hn : chainsNodup m) : (allKeys m).Nodup := by
  have hrw : allKeys m = (m.m_buckets.map (List.map Prod.fst)).flatten := by
    simp [allKeys, allEntries, List.map_flatten]
  rw [hrw, List.nodup_flatten]
  constructor
  · intro l hl
    obtain ⟨c, hc, rfl⟩ := List.mem_map.mp hl
    obtain ⟨i, hi, rfl⟩ := List.mem_iff_getElem.mp hc
    have hbi : bucketOf m i = m.m_buckets[i] := by
      rw [bucketOf, List.getD_eq_getElem _ _ hi]
    have := hn i hi
    rwa [chainKeys, hbi] at this
  · rw [List.pairwise_iff_getElem]
    intro a c ha hc hac
    simp only [List.length_map] at ha hc
    intro k hk1 hk2
    rw [List.getElem_map] at hk1 hk2
    have hba : bucketOf m a = m.m_buckets[a] := by
      rw [bucketOf, List.getD_eq_getElem _ _ ha]
    have hbc : bucketOf m c = m.m_buckets[c] := by
      rw [bucketOf, List.getD_eq_getElem _ _ hc]
    obtain ⟨p, hp, hpk⟩ := List.mem_map.mp hk1
    obtain ⟨q, hq, hqk⟩ := List.mem_map.mp hk2
    have hia := hb a ha p (hba ▸ hp)
    have hic := hb c hc q (hbc ▸ hq)
    rw [hpk] at hia
    rw [hqk] at hic
    exact absurd (hia.symm.trans hic) (Nat.ne_of_lt hac)

theorem mem_allKeys_bucket {m : MyHashMap K V} (hb : bucketInv hashFn m)
    {key : K} (h : key ∈ allKeys m) :
    key ∈ chainKeys (bucketOf m (hashFn key % capacity m)) := by
  obtain ⟨p, hp, rfl⟩ := List.mem_map.mp h
  obtain ⟨i, hi, hpi⟩ := mem_allEntries_exists_bucket hp
  have hidx := hb i hi p hpi
  rw [hidx]
  exact List.mem_map_of_mem _ hpi

theorem capacity_pos_of_mem_allKeys {m : MyHashMap K V} {key : K}
    (h : key ∈ allKeys m) : 0 < capacity m := by
  obtain ⟨p, hp, rfl⟩ := List.mem_map.mp h
  obtain ⟨i, hi, -⟩ := mem_allEntries_exists_bucket hp
  exact Nat.pos_of_ne_zero (fun hz => by omega)

theorem not_mem_bucket_of_not_mem_allKeys {m : MyHashMap K V} {key : K}
    {i : Nat} (hi : i < capacity m) (h : key ∉ allKeys m) :
    key ∉ chainKeys (bucketOf m i) := by
  intro hmem
  obtain ⟨p, hp, hpk⟩ := List.mem_map.mp hmem
  exact h (by
    rw [allKeys, ← hpk]
    exact List.mem_map_of_mem _ (mem_bucketOf_mem_allEntries hi hp))

/-! ### Claim theorems -/

/-- Claim C1: for every container state (with a nonempty bucket vector, so
that the bucket computation is defined) and every key not present in the
container, `insert` constructs a new entry, makes it the new head of the
chain of the bucket selected for that key with its successor set to the
former head, increments `m_size` by exactly 1, and returns `true`. -/
theorem claim1_insert_new_key (m : MyHashMap K V) (key : K) (value : V)
    (hcap : 0 < capacity m) (hnew : key ∉ allKeys m) :
    get_bucket_index hashFn m key = some (hashFn key % capacity m) ∧
    insert hashFn m key value =
      some ({ m_buckets := m.m_buckets.set (hashFn key % capacity m)
                ((key, value) :: bucketOf m (hashFn key % capacity m)),
              m_size := m.m_size + 1 }, true) := by
  have hi : hashFn key % capacity m < capacity m := Nat.mod_lt _ hcap
  have hnb := not_mem_bucket_of_not_mem_allKeys hi hnew
  have hu := (updateChain_eq_none_iff key value
    (bucketOf m (hashFn key % capacity m))).mpr hnb
  exact ⟨get_bucket_index_of_pos hashFn key hcap,
    insert_of_updateChain_none hashFn hcap hu⟩

/-- Witness for C1: inserting the fresh key 2 into an empty table of
capacity 4 (identity hash) head-inserts into bucket 2, sets size to 1 and
returns `true`. -/
theorem claim1_witness :
    0 < capacity (mkMyHashMap 4 : MyHashMap Nat Nat) ∧
    2 ∉ allKeys (mkMyHashMap 4 : MyHashMap Nat Nat) ∧
    get_bucket_index (fun k => k) (mkMyHashMap 4 : MyHashMap Nat Nat) 2 =
      some 2 ∧
    insert (fun k => k) (mkMyHashMap 4 : MyHashMap Nat Nat) 2 9 =
      some ({ m_buckets := [[], [], [(2, 9)], []], m_size := 1 }, true) := by
  have h := claim1_insert_new_key (fun k => k)
    (mkMyHashMap 4 : MyHashMap Nat Nat) 2 9 (by decide) (by decide)
  exact ⟨by decide, by decide, h.1.trans (by decide), h.2.trans (by decide)⟩

/-- Claim C2: in every reachable container state, for every key already
present, `insert` overwrites the value of the first entry of the selected
chain whose key compares equal, returns `false`, and leaves the size, the
capacity, every other bucket, and the key structure of every chain
unchanged. -/
theorem claim2_insert_existing_key (m : MyHashMap K V) (key : K) (value : V)
    (hr : Reachable hashFn m) (hmem : key ∈ allKeys m) :
    ∃ m' pre v0 post,
      insert hashFn m key value = some (m', false) ∧
      bucketOf m (hashFn key % capacity m) = pre ++ (key, v0) :: post ∧
      key ∉ chainKeys pre ∧
      bucketOf m' (hashFn key % capacity m) = pre ++ (key, value) :: post ∧
      (∀ j, j ≠ hashFn key % capacity m → bucketOf m' j = bucketOf m j) ∧
      (∀ j, chainKeys (bucketOf m' j) = chainKeys (bucketOf m j)) ∧
      m'.m_size = m.m_size ∧
      capacity m' = capacity m := by
  have hb := (reachable_inv hashFn hr).1
  have hcap := capacity_pos_of_mem_allKeys hmem
  have hilen : hashFn key % capacity m < m.m_buckets.length := Nat.mod_lt _ hcap
  have hkey := mem_allKeys_bucket hashFn hb hmem
  obtain ⟨c', hu⟩ := updateChain_isSome_of_mem value hkey
  obtain ⟨pre, v0, post, hchain, hpre, hc'⟩ := updateChain_some_decomp hu
  refine ⟨_, pre, v0, post, insert_of_updateChain_some hashFn hcap hu,
    hchain, hpre, ?_, ?_, ?_, rfl, List.length_set ..⟩
  · rw [bucketOf_mk_record, getD_set_self _ _ _ _ hilen]
    exact hc'
  · intro j hj
    rw [bucketOf_mk_record, getD_set_ne _ _ _ _ _ (Ne.symm hj)]
    rfl
  · intro j
    by_cases hj : j = hashFn key % capacity m
    · subst hj
      rw [bucketOf_mk_record, getD_set_self _ _ _ _ hilen,
        updateChain_some_keys hu]
    · rw [bucketOf_mk_record, getD_set_ne _ _ _ _ _ (Ne.symm hj)]
      rfl

/-- Witness for C2: in the reachable state holding only the entry (2, 9),
re-inserting key 2 with value 7 overwrites in place and returns `false`. -/
theorem claim2_witness :
    Reachable (fun k => k)
      ({ m_buckets := [[], [], [(2, 9)], []], m_size := 1 } : MyHashMap Nat Nat) ∧
    2 ∈ allKeys
      ({ m_buckets := [[], [], [(2, 9)], []], m_size := 1 } : MyHashMap Nat Nat) ∧
    (∃ m' pre v0 post,
      insert (fun k => k)
        ({ m_buckets := [[], [], [(2, 9)], []], m_size := 1 } : MyHashMap Nat Nat)
        2 7 = some (m', false) ∧
      bucketOf ({ m_buckets := [[], [], [(2, 9)], []], m_size := 1 } :
        MyHashMap Nat Nat) 2 = pre ++ (2, v0) :: post ∧
      2 ∉ chainKeys pre ∧
      bucketOf m' 2 = pre ++ (2, 7) :: post ∧
      (∀ j, j ≠ 2 → bucketOf m' j =
        bucketOf ({ m_buckets := [[], [], [(2, 9)], []], m_size := 1 } :
          MyHashMap Nat Nat) j) ∧
      (∀ j, chainKeys (bucketOf m' j) =
        chainKeys (bucketOf
          ({ m_buckets := [[], [], [(2, 9)], []], m_size := 1 } :
            MyHashMap Nat Nat) j)) ∧
      m'.m_size = 1 ∧
      capacity m' = 4) := by
  have hre : Reachable (fun k => k)
      ({ m_buckets := [[], [], [(2, 9)], []], m_size := 1 } : MyHashMap Nat Nat) :=
    Reachable.step (mkMyHashMap 4) _ 2 9 true (Reachable.mk 4) (by decide)
  exact ⟨hre, by decide,
    claim2_insert_existing_key (fun k => k) _ 2 7 hre (by decide)⟩

/-- Counterexample to claim C3: inserting 13 distinct keys into a table of
initial capacity 16 pushes the load factor to 13/16 = 0.8125 > 0.75, yet
the capacity stays exactly 16 — `insert` contains no load-factor check and
no rehash (the source leaves rehashing as an explicit TODO). -/
theorem claim3_counterexample :
    3 * capacity scenario13 < 4 * scenario13.m_size ∧
    scenario13.m_size = 13 ∧
    capacity scenario13 = 16 ∧
    ¬ 16 < capacity scenario13 := by
  decide

/-- Claim C3 as amended: no rehash is ever performed — every `insert` call
leaves the capacity exactly unchanged, and in particular inserting 13
distinct keys into a table of initial capacity 16 leaves the capacity at
16 (not greater) even though the load factor then exceeds 0.75. -/
theorem claim3_no_rehash (m m' : MyHashMap K V) (key : K) (value : V)
    (b : Bool) (h : insert hashFn m key value = some (m', b)) :
    capacity m' = capacity m ∧
    capacity scenario13 = 16 ∧
    scenario13.m_size = 13 :=
  ⟨capacity_insert hashFn h, by decide, by decide⟩

/-- Witness for the amended C3, at a concrete insertion into a table of
capacity 4. -/
theorem claim3_witness :
    insert (fun k => k) (mkMyHashMap 4 : MyHashMap Nat Nat) 2 9 =
      some ({ m_buckets := [[], [], [(2, 9)], []], m_size := 1 }, true) ∧
    (capacity ({ m_buckets := [[], [], [(2, 9)], []], m_size := 1 } :
        MyHashMap Nat Nat) = capacity (mkMyHashMap 4 : MyHashMap Nat Nat) ∧
      capacity scenario13 = 16 ∧
      scenario13.m_size = 13) :=
  ⟨by decide, claim3_no_rehash (fun k => k) (mkMyHashMap 4) _ 2 9 true (by decide)⟩

/-- Counterexample to claim C4: construction with `initial_buckets = 0`
neither clamps the capacity to 1 nor rejects the argument — it produces a
container of capacity 0, in which the modulo of `get_bucket_index` is
division by zero (undefined behaviour, modelled as `none`), so the error
branch is reachable. -/
theorem claim4_counterexample :
    capacity (mkMyHashMap 0 : MyHashMap Nat Nat) = 0 ∧
    ¬ 1 ≤ capacity (mkMyHashMap 0 : MyHashMap Nat Nat) ∧
    get_bucket_index (fun k => k) (mkMyHashMap 0 : MyHashMap Nat Nat) 5 = none ∧
    insert (fun k => k) (mkMyHashMap 0 : MyHashMap Nat Nat) 5 1 = none := by
  decide

/-- Claim C4 as amended: the constructor stores the requested capacity
exactly (no clamping, no rejection), `insert` never changes the capacity,
and the modulo in `get_bucket_index` is well-defined precisely on the
states of nonzero capacity.  Hence a container constructed with a nonzero
initial capacity keeps `capacity ≥ 1` in every reachable state and never
reaches the division-by-zero branch, while construction with capacity 0 is
accepted and makes that branch reachable. -/
theorem claim4_capacity (n : Nat) (m m' : MyHashMap K V) (key : K)
    (value : V) (b : Bool) :
    capacity (mkMyHashMap n : MyHashMap K V) = n ∧
    (insert hashFn m key value = some (m', b) → capacity m' = capacity m) ∧
    (0 < capacity m →
      get_bucket_index hashFn m key = some (hashFn key % capacity m)) ∧
    (capacity m = 0 → get_bucket_index hashFn m key = none) :=
  ⟨capacity_mk n, fun h => capacity_insert hashFn h,
    fun hcap => get_bucket_index_of_pos hashFn key hcap,
    fun hcap => get_bucket_index_of_zero hashFn key hcap⟩

/-- Witness for the amended C4, at capacity 0 and at a concrete insert
into a table of capacity 4. -/
theorem claim4_witness :
    (capacity (mkMyHashMap 0 : MyHashMap Nat Nat) = 0 ∧
      capacity ({ m_buckets := [[], [], [(2, 9)], []], m_size := 1 } :
        MyHashMap Nat Nat) = capacity (mkMyHashMap 4 : MyHashMap Nat Nat) ∧
      get_bucket_index (fun k => k) (mkMyHashMap 4 : MyHashMap Nat Nat) 2 =
        some ((fun k : Nat => k) 2 % capacity (mkMyHashMap 4 : MyHashMap Nat Nat))) ∧
    get_bucket_index (fun k => k) (mkMyHashMap 0 : MyHashMap Nat Nat) 5 = none := by
  have h1 := claim4_capacity (fun k => k) 0 (mkMyHashMap 4 : MyHashMap Nat Nat)
    ({ m_buckets := [[], [], [(2, 9)], []], m_size := 1 }) 2 9 true
  have h2 := claim4_capacity (fun k => k) 0 (mkMyHashMap 0 : MyHashMap Nat Nat)
    (mkMyHashMap 0) 5 1 true
  exact ⟨⟨h1.1, h1.2.1 (by decide), h1.2.2.1 (by decide)⟩, h2.2.2.2 (by decide)⟩

/-- Claim C5: in every reachable container state no two entries anywhere
in the table have equal keys. -/
theorem claim5_key_uniqueness (m : MyHashMap K V) (hr : Reachable hashFn m) :
    (allKeys m).Nodup := by
  have hinv := reachable_inv hashFn hr
  exact nodup_allKeys_of_inv hashFn hinv.1 hinv.2.1

/-- Witness for C5 at a concrete reachable two-entry state. -/
theorem claim5_witness :
    Reachable (fun k => k) state2 ∧ (allKeys state2).Nodup := by
  have hre : Reachable (fun k => k) state2 :=
    Reachable.step state1 state2 5 3 true
      (Reachable.step (mkMyHashMap 4) state1 2 9 true (Reachable.mk 4)
        (by decide))
      (by decide)
  exact ⟨hre, claim5_key_uniqueness (fun k => k) state2 hre⟩

/-- Claim C6: in every reachable container state, every entry reachable
from bucket slot `i` satisfies `hash(key) % capacity = i`. -/
theorem claim6_bucket_placement (m : MyHashMap K V) (hr : Reachable hashFn m) :
    ∀ i, i < capacity m → ∀ p ∈ bucketOf m i, hashFn p.1 % capacity m = i :=
  (reachable_inv hashFn hr).1

/-- Witness for C6 at a concrete reachable state, slot 2, entry (2, 9). -/
theorem claim6_witness :
    Reachable (fun k => k) state2 ∧
    2 < capacity state2 ∧
    (2, 9) ∈ bucketOf state2 2 ∧
    (fun k : Nat => k) ((2, 9) : Nat × Nat).1 % capacity state2 = 2 := by
  have hre : Reachable (fun k => k) state2 :=
    Reachable.step state1 state2 5 3 true
      (Reachable.step (mkMyHashMap 4) state1 2 9 true (Reachable.mk 4)
        (by decide))
      (by decide)
  exact ⟨hre, by decide, by decide,
    claim6_bucket_placement (fun k => k) state2 hre 2 (by decide) (2, 9)
      (by decide)⟩

/-- Claim C7: in every reachable container state the `m_size` counter
equals the total number of entries reachable across all bucket chains. -/
theorem claim7_size_invariant (m : MyHashMap K V) (hr : Reachable hashFn m) :
    m.m_size = (allEntries m).length :=
  (reachable_inv hashFn hr).2.2

/-- Witness for C7 at a concrete reachable two-entry state. -/
theorem claim7_witness :
    Reachable (fun k => k) state2 ∧
    state2.m_size = (allEntries state2).length := by
  have hre : Reachable (fun k => k) state2 :=
    Reachable.step state1 state2 5 3 true
      (Reachable.step (mkMyHashMap 4) state1 2 9 true (Reachable.mk 4)
        (by decide))
      (by decide)
  exact ⟨hre, claim7_size_invariant (fun k => k) state2 hre⟩

/-- Claim C8: whenever an `insert(key, value)` call executes (returns a
result), calling `insert(key, value)` again immediately afterwards leaves
the size unchanged and returns `false`. -/
theorem claim8_insert_idempotent (m m' : MyHashMap K V) (key : K)
    (value : V) (b : Bool) (h1 : insert hashFn m key value = some (m', b)) :
    ∃ m'', insert hashFn m' key value = some (m'', false) ∧
      m''.m_size = m'.m_size := by
  have hcap := capacity_pos_of_insert_some hashFn h1
  have hcapEq := capacity_insert hashFn h1
  have hcap' : 0 < capacity m' := hcapEq ▸ hcap
  have hilen : hashFn key % capacity m < m.m_buckets.length := Nat.mod_lt _ hcap
  have hkey : key ∈ chainKeys (bucketOf m' (hashFn key % capacity m')) := by
    rw [show capacity m' = capacity m from hcapEq]
    rcases insert_some_cases hashFn h1 with ⟨c', hu, -, rfl⟩ | ⟨hu, -, rfl⟩
    · obtain ⟨pre, v0, post, -, -, hc'⟩ := updateChain_some_decomp hu
      rw [bucketOf_mk_record, getD_set_self _ _ _ _ hilen, hc']
      simp [chainKeys]
    · rw [bucketOf_mk_record, getD_set_self _ _ _ _ hilen]
      simp [chainKeys]
  obtain ⟨c2, hu2⟩ := updateChain_isSome_of_mem value hkey
  exact ⟨_, insert_of_updateChain_some hashFn hcap' hu2, rfl⟩

/-- Witness for C8: after inserting (2, 9) into an empty capacity-4 table,
inserting (2, 9) again returns `false` and keeps the size at 1. -/
theorem claim8_witness :
    insert (fun k => k) (mkMyHashMap 4 : MyHashMap Nat Nat) 2 9 =
      some (state1, true) ∧
    (∃ m'', insert (fun k => k) state1 2 9 = some (m'', false) ∧
      m''.m_size = state1.m_size) :=
  ⟨by decide,
    claim8_insert_idempotent (fun k => k) (mkMyHashMap 4) state1 2 9 true
      (by decide)⟩

/-- Claim C9: for every key and every container state of nonzero capacity,
`get_bucket_index` yields an index strictly below the capacity, so the
bucket access in `insert` is in bounds. -/
theorem claim9_bucket_index_in_bounds (m : MyHashMap K V) (key : K)
    (hcap : 0 < capacity m) :
    ∃ i, get_bucket_index hashFn m key = some i ∧ i < capacity m :=
  ⟨hashFn key % capacity m, get_bucket_index_of_pos hashFn key hcap,
    Nat.mod_lt _ hcap⟩

/-- Witness for C9 at key 7 in a capacity-4 table. -/
theorem claim9_witness :
    0 < capacity (mkMyHashMap 4 : MyHashMap Nat Nat) ∧
    (∃ i, get_bucket_index (fun k => k) (mkMyHashMap 4 : MyHashMap Nat Nat) 7 =
      some i ∧ i < capacity (mkMyHashMap 4 : MyHashMap Nat Nat)) :=
  ⟨by decide,
    claim9_bucket_index_in_bounds (fun k => k) (mkMyHashMap 4) 7 (by decide)⟩

/-- Claim C10: `insert` modifies at most the single bucket slot selected
for the key — every other bucket slot is unchanged, the capacity is
unchanged, and the key fields of all existing entries are unchanged (on an
overwrite the key lists of all chains are equal; on a new-key insertion
the selected chain is exactly the new entry consed onto the old chain). -/
theorem claim10_insert_frame (m m' : MyHashMap K V) (key : K) (value : V)
    (b : Bool) (h : insert hashFn m key value = some (m', b)) :
    capacity m' = capacity m ∧
    (∀ j, j ≠ hashFn key % capacity m → bucketOf m' j = bucketOf m j) ∧
    (b = false →
      ∀ j, chainKeys (bucketOf m' j) = chainKeys (bucketOf m j)) ∧
    (b = true →
      bucketOf m' (hashFn key % capacity m) =
        (key, value) :: bucketOf m (hashFn key % capacity m)) := by
  have hcap := capacity_pos_of_insert_some hashFn h
  have hilen : hashFn key % capacity m < m.m_buckets.length := Nat.mod_lt _ hcap
  rcases insert_some_cases hashFn h with ⟨c', hu, rfl, rfl⟩ | ⟨hu, rfl, rfl⟩
  · refine ⟨List.length_set .., ?_, ?_, ?_⟩
    · intro j hj
      rw [bucketOf_mk_record, getD_set_ne _ _ _ _ _ (Ne.symm hj)]
      rfl
    · intro _ j
      by_cases hj : j = hashFn key % capacity m
      · subst hj
        rw [bucketOf_mk_record, getD_set_self _ _ _ _ hilen,
          updateChain_some_keys hu]
      · rw [bucketOf_mk_record, getD_set_ne _ _ _ _ _ (Ne.symm hj)]
        rfl
    · intro hcontra
      exact absurd hcontra (by decide)
  · refine ⟨List.length_set .., ?_, ?_, ?_⟩
    · intro j hj
      rw [bucketOf_mk_record, getD_set_ne _ _ _ _ _ (Ne.symm hj)]
      rfl
    · intro hcontra
      exact absurd hcontra (by decide)
    · intro _
      rw [bucketOf_mk_record, getD_set_self _ _ _ _ hilen]

/-- Witness for C10 at a concrete insertion of key 5 into `state1`. -/
theorem claim10_witness :
    insert (fun k => k) state1 5 3 = some (state2, true) ∧
    (capacity state2 = capacity state1 ∧
      (∀ j, j ≠ (fun k : Nat => k) 5 % capacity state1 →
        bucketOf state2 j = bucketOf state1 j) ∧
      (true = false →
        ∀ j, chainKeys (bucketOf state2 j) = chainKeys (bucketOf state1 j)) ∧
      (true = true →
        bucketOf state2 ((fun k : Nat => k) 5 % capacity state1) =
          (5, 3) :: bucketOf state1 ((fun k : Nat => k) 5 % capacity state1))) :=
  ⟨by decide,
    claim10_insert_frame (fun k => k) state1 state2 5 3 true (by decide)⟩

end MyHashMapModel
